import Mathlib

/-!
Verification of the budou chunk model, chunk-list operations, entity
grouping, two-pass dependency resolution and HTML serialization
(`budou/budou.py`), as a shallow embedding.  Words are modelled as
`List Char`; Python `None` becomes `Option.none`; operations that can
raise an uncaught Python exception (`IndexError` from `get_overlaps`,
`ValueError`/`IndexError` from `ChunkList.swap`) return `Option` with
`none` for the error case.  Python compares `Chunk` objects by identity;
the embedding uses structural equality, which coincides with identity on
sequences whose chunks are pairwise distinct (the case in every concrete
input below).
-/

namespace Budou

/-- Model of `Chunk` (budou.py, class Chunk): surface word, part of
speech, dependency label, and the directional merge flag (`none` = no
dependency, `some true` = depends on the following word, `some false` =
depends on the previous word). -/
structure Chunk where
  word : List Char
  pos : Option String
  label : Option String
  dependency : Option Bool
deriving Repr, DecidableEq

/-- Reserved part-of-speech marker for space chunks (`Chunk.SPACE_POS`). -/
def SPACE_POS : String := "SPACE"

/-- The fixed tuple `Chunk.DEPENDENT_LABEL` of labels eligible for a
default dependency direction. -/
def DEPENDENT_LABEL : List String :=
  ["P", "SNUM", "PRT", "AUX", "SUFF", "MWV", "AUXPASS", "AUXVV", "RDROP",
   "NUMBER", "NUM"]

/-- Model of Python `unicodedata.category` restricted to the code points
exercised in this development; faithful to the Unicode general category
of each listed code point, with an arbitrary non-punctuation default for
code points outside the table (the theorems quantify over the function's
output, so only the listed code points matter). -/
def unicodeCategory (c : Char) : String :=
  if c = '(' then "Ps"
  else if c = ')' then "Pe"
  else if c = '[' then "Ps"
  else if c = ']' then "Pe"
  else if c = '「' then "Ps"
  else if c = '」' then "Pe"
  else if c = '«' then "Pi"
  else if c = '»' then "Pf"
  else if c = '。' then "Po"
  else if c = '、' then "Po"
  else if c = '.' then "Po"
  else if c = ',' then "Po"
  else if c = ' ' then "Zs"
  else "Lo"

/-- Model of `Chunk._add_dependency_if_punct`: when the part of speech is
`PUNCT`, look up the Unicode category of the word and set the dependency
to whether it is an opening/initial-quote category.  Python's
`unicodedata.category` raises `TypeError` unless the word is exactly one
character; the bare `except: pass` swallows that error, leaving the
dependency unchanged, which the wildcard match models. -/
def addDependencyIfPunct (c : Chunk) : Chunk :=
  if c.pos = some "PUNCT" then
    match c.word with
    | [ch] => { c with dependency := some (["Ps", "Pi"].contains (unicodeCategory ch)) }
    | _ => c
  else c

/-- Model of `Chunk.__init__`: stores the fields, then applies the
punctuation rule. -/
def Chunk.make (word : List Char) (pos : Option String) (label : Option String)
    (dependency : Option Bool) : Chunk :=
  addDependencyIfPunct { word := word, pos := pos, label := label, dependency := dependency }

/-- Model of the `Chunk.space` factory. -/
def Chunk.space : Chunk := Chunk.make [' '] (some SPACE_POS) none none

/-- Model of `Chunk.is_space`. -/
def Chunk.is_space (c : Chunk) : Bool := c.pos == some SPACE_POS

/-- Membership of an optional label in `DEPENDENT_LABEL`; Python's
`None in tuple` is `False`. -/
def labelIsDependent : Option String → Bool
  | some s => DEPENDENT_LABEL.contains s
  | none => false

/-- Model of `Chunk.maybe_add_dependency`: assign the default direction
only when no dependency is set yet and the label is a dependent label. -/
def Chunk.maybe_add_dependency (c : Chunk) (defaultDirection : Bool) : Chunk :=
  if c.dependency = none ∧ labelIsDependent c.label then
    { c with dependency := some defaultDirection }
  else c

/-- Concatenation of the words of a chunk sequence, the text the
sequence spans (`''.join(chunk.word for chunk in self)`). -/
def wordsOf (cs : List Chunk) : List Char := (cs.map Chunk.word).flatten

/-- Loop body of `ChunkList.get_overlaps`: scan the chunks keeping the
running start index, collecting chunks whose span meets the window. -/
def overlapsGo (offset length : Nat) : List Chunk → Nat → List Chunk
  | [], _ => []
  | c :: rest, index =>
    (if offset < index + c.word.length ∧ index < offset + length then [c] else [])
      ++ overlapsGo offset length rest (index + c.word.length)

/-- Model of `ChunkList.get_overlaps`.  Python first indexes the joined
text at `offset` (an uncaught `IndexError` when out of range, modelled
by `none`), bumps the offset past a leading space, then scans. -/
def getOverlaps (cs : List Chunk) (offset length : Nat) : Option (List Chunk) :=
  match (wordsOf cs).get? offset with
  | none => none
  | some ch =>
    let offset2 := if ch = ' ' then offset + 1 else offset
    some (overlapsGo offset2 length cs 0)

/-- First index of a value in a list, modelling Python `list.index`
(which raises `ValueError`, here `none`, when the value is absent). -/
def listIndex (cs : List Chunk) (c : Chunk) : Option Nat :=
  match cs with
  | [] => none
  | x :: rest => if x = c then some 0 else (listIndex rest c).map (· + 1)

/-- The list comprehension `[self.index(chunk) for chunk in old_chunks]`
of `ChunkList.swap`: `none` when some lookup raises. -/
def indexesOf (cs : List Chunk) : List Chunk → Option (List Nat)
  | [] => some []
  | c :: rest =>
    match listIndex cs c, indexesOf cs rest with
    | some i, some is => some (i :: is)
    | _, _ => none

/-- Model of `ChunkList.swap`: look up each old chunk's index, delete
the slice from the first index through the last index, and insert the
new chunk at the first index.  `none` models the uncaught `ValueError`
from `list.index` when a chunk is absent, and the uncaught `IndexError`
from `indexes[0]` when `old` is empty.  Python's `del self[i:j]` removes
nothing when `j < i`, hence the `max`. -/
def swap (cs : List Chunk) (old : List Chunk) (newChunk : Chunk) : Option (List Chunk) :=
  match indexesOf cs old with
  | none => none
  | some [] => none
  | some (i0 :: restIdx) =>
    let ilast := (i0 :: restIdx).getLast (by simp)
    let deleted := cs.take i0 ++ cs.drop (max i0 (ilast + 1))
    some (deleted.take i0 ++ newChunk :: deleted.drop i0)

/-- Model of an entity from the entity-analysis response: begin offset
and content text (only its length is used). -/
structure Entity where
  beginOffset : Nat
  content : List Char
deriving Repr, DecidableEq

/-- Model of `Budou._group_chunks_by_entities`: for each entity in
order, collect the overlapping chunks, skip the entity when there are
none, otherwise concatenate their words into a fresh metadata-free chunk
and swap it in.  `none` propagates an uncaught exception from
`get_overlaps`/`swap`. -/
def groupChunksByEntities (cs : List Chunk) (entities : List Entity) :
    Option (List Chunk) :=
  entities.foldlM (fun chunks e =>
    match getOverlaps chunks e.beginOffset e.content.length with
    | none => none
    | some toConcat =>
      if toConcat = [] then some chunks
      else
        let newChunk := Chunk.make (wordsOf toConcat) none none none
        swap chunks toConcat newChunk) cs

/-- Model of a syntax-analysis token as consumed by
`Budou._get_source_chunks`. -/
structure Token where
  content : List Char
  beginOffset : Nat
  label : String
  headTokenIndex : Nat
  pos : String
deriving Repr, DecidableEq

/-- The chunk `Budou._get_source_chunks` builds for the `i`-th token:
construct with word/pos/label, then maybe assign the default direction
`i < headTokenIndex`. -/
def buildTokenChunk (i : Nat) (t : Token) : Chunk :=
  (Chunk.make t.content (some t.pos) (some t.label) none).maybe_add_dependency
    (decide (i < t.headTokenIndex))

/-- Loop of `Budou._get_source_chunks`, threading the token counter and
the running `sentence_length`; a space chunk is inserted when the
token's begin offset lies past the text consumed so far. -/
def getSourceChunksGo : Nat → Nat → List Token → List Chunk
  | _, _, [] => []
  | i, sentenceLength, t :: rest =>
    let gap := sentenceLength < t.beginOffset
    let withSpace : List Chunk := if gap then [Chunk.space] else []
    let sl := if gap then t.beginOffset else sentenceLength
    withSpace ++ buildTokenChunk i t :: getSourceChunksGo (i + 1) (sl + t.content.length) rest

/-- Model of `Budou._get_source_chunks`. -/
def getSourceChunks (tokens : List Token) : List Chunk :=
  getSourceChunksGo 0 0 tokens

/-- Merge condition of `Budou._concatenate_inner`: the chunk's
dependency matches the pass direction, or (backward pass only) the chunk
is a space. -/
def mergeCond (direction : Bool) (c : Chunk) : Bool :=
  c.dependency == some direction || (!direction && c.is_space)

/-- Loop of `Budou._concatenate_inner`, returning the emitted target
chunks and the final unflushed bucket.  A chunk matching the merge
condition joins the bucket; otherwise the bucket (with the chunk) is
concatenated — reversed first in the backward pass — into the chunk's
word and the chunk is emitted. -/
def concatLoop (direction : Bool) : List Chunk → List Chunk → List Chunk × List Chunk
  | [], bucket => ([], bucket)
  | c :: rest, bucket =>
    if mergeCond direction c then
      concatLoop direction rest (bucket ++ [c])
    else
      let b := bucket ++ [c]
      let b2 := if direction then b else b.reverse
      let merged := { c with word := wordsOf b2 }
      let p := concatLoop direction rest []
      (merged :: p.1, p.2)

/-- Model of `Budou._concatenate_inner`: the backward pass runs the loop
on the reversed sequence and reverses the result back; the trailing
bucket is appended to the target unmerged. -/
def concatenateInner (cs : List Chunk) (direction : Bool) : List Chunk :=
  let p := concatLoop direction (if direction then cs else cs.reverse) []
  let out := p.1 ++ p.2
  if direction then out else out.reverse

/-- Model of `Budou._resolve_dependency`: forward pass then backward
pass. -/
def resolveDependency (cs : List Chunk) : List Chunk :=
  concatenateInner (concatenateInner cs true) false

/-- Model of an output `lxml` SPAN element built by
`Budou._html_serialize`: its text, its attribute pairs, and whether a
trailing-space tail marker has been set on it. -/
structure SpanElem where
  text : List Char
  attrib : List (String × String)
  tail : Bool
deriving Repr, DecidableEq

/-- Model of the outer `lxml` document element of
`Budou._html_serialize` before string rendering and sanitization. -/
structure SpanDoc where
  tag : String
  attrib : List (String × String)
  children : List SpanElem
deriving Repr, DecidableEq

/-- Model of `doc.getchildren()[-1].tail = ' '`: mark the last element,
if any, as carrying a trailing space. -/
def setTailOnLast : List SpanElem → List SpanElem
  | [] => []
  | [e] => [{ e with tail := true }]
  | e :: e2 :: rest => e :: setTailOnLast (e2 :: rest)

/-- Loop of `Budou._html_serialize` over the chunks, threading the list
of children built so far: a space chunk marks the last child's tail
(no-op when there is none); any other chunk appends a fresh element
carrying the chunk's word and every attribute pair. -/
def htmlSerializeGo (attrs : List (String × String)) :
    List Chunk → List SpanElem → List SpanElem
  | [], acc => acc
  | c :: rest, acc =>
    if c.is_space then htmlSerializeGo attrs rest (setTailOnLast acc)
    else htmlSerializeGo attrs rest (acc ++ [⟨c.word, attrs, false⟩])

/-- Model of `Budou._html_serialize` at the element-tree level, before
`lxml.etree.tostring` and `clean_html`: an attribute-less outer `span`
holding the per-chunk elements. -/
def htmlSerialize (cs : List Chunk) (attrs : List (String × String)) : SpanDoc :=
  ⟨"span", [], htmlSerializeGo attrs cs []⟩

/-- Whether a chunk sequence starts with a space chunk. -/
def headIsSpace : List Chunk → Bool
  | [] => false
  | c :: _ => c.is_space

/-- Serialization as the specification describes it: one element per
non-space chunk in order, carrying every attribute pair, whose tail
marker records whether a space chunk follows before the next non-space
chunk; space chunks produce no element, and a leading space is
dropped. -/
def specSerialize (attrs : List (String × String)) : List Chunk → List SpanElem
  | [] => []
  | c :: rest =>
    if c.is_space then specSerialize attrs rest
    else ⟨c.word, attrs, headIsSpace rest⟩ :: specSerialize attrs rest

/-- Overlap lookup as the specification's correctness property describes
it: keep exactly the chunks whose span `[start, start + len(word))` has
a non-empty intersection with the window `[offset, offset + length)`,
`start` being the running sum of the previous words' lengths. -/
def specOverlapsGo (offset length : Nat) : List Chunk → Nat → List Chunk
  | [], _ => []
  | c :: rest, start =>
    (if max start offset < min (start + c.word.length) (offset + length) then [c] else [])
      ++ specOverlapsGo offset length rest (start + c.word.length)

/-- Entry point of the specification-side overlap lookup. -/
def specOverlaps (cs : List Chunk) (offset length : Nat) : List Chunk :=
  specOverlapsGo offset length cs 0

/-- The specification's offset-correction rule: when the character at
`offset` in the concatenated text is a space, scan from `offset + 1`. -/
def correctedOffset (cs : List Chunk) (offset : Nat) : Nat :=
  if (wordsOf cs).get? offset = some ' ' then offset + 1 else offset

/-- The chunk the amended claim C8 predicts for the `i`-th token: word,
pos and label are stored; the dependency is the punctuation-derived
direction for a single-character `PUNCT` word, otherwise the default
direction `i < headTokenIndex` when the label is a dependent label,
otherwise unset. -/
def tokenChunkSpec (i : Nat) (t : Token) : Chunk :=
  let dep : Option Bool :=
    match t.content with
    | [ch] =>
      if t.pos = "PUNCT" then some (["Ps", "Pi"].contains (unicodeCategory ch))
      else if DEPENDENT_LABEL.contains t.label then some (decide (i < t.headTokenIndex))
      else none
    | _ =>
      if DEPENDENT_LABEL.contains t.label then some (decide (i < t.headTokenIndex))
      else none
  ⟨t.content, some t.pos, some t.label, dep⟩

/-- Concrete chunk sequence of the C1 scenario. -/
def tokyoChunks : List Chunk :=
  [Chunk.make "Tokyo".toList none none none, Chunk.space,
   Chunk.make "Tower".toList none none none]

/-- Concrete entity of the C1 scenario: offset 0, content of length 11. -/
def tokyoEntity : Entity := ⟨0, "Tokyo Tower".toList⟩

/-- Concrete chunks for the C3 and C4 counterexamples. -/
def chA : Chunk := Chunk.make ['a'] none none none

/-- Second concrete chunk. -/
def chB : Chunk := Chunk.make ['b'] none none none

/-- Third concrete chunk. -/
def chC : Chunk := Chunk.make ['c'] none none none

/-- Replacement chunk for the C3 counterexample. -/
def chNew : Chunk := Chunk.make ['n'] none none none

/-- Concrete token stream for the C5 counterexample: a forward-leaning
dependent token, a one-character gap forcing a space chunk, and a plain
token. -/
def demoTokens : List Token :=
  [⟨['x'], 0, "P", 1, "NOUN"⟩, ⟨['y'], 2, "NSUBJ", 0, "NOUN"⟩]

/-- Concrete token for the C8 counterexample: direction still unset
after construction, head index greater than its own position, but a
label outside the dependent-label set. -/
def nsubjToken : Token := ⟨['x'], 0, "NSUBJ", 1, "NOUN"⟩

lemma setTailOnLast_concat (acc : List SpanElem) (e : SpanElem) :
    setTailOnLast (acc ++ [e]) = acc ++ [{ e with tail := true }] := by
  induction acc with
  | nil => simp [setTailOnLast]
  | cons a rest ih =>
    cases rest with
    | nil => simp [setTailOnLast]
    | cons b r2 => simpa [setTailOnLast] using ih

lemma setTailOnLast_idem (l : List SpanElem) :
    setTailOnLast (setTailOnLast l) = setTailOnLast l := by
  rcases l.eq_nil_or_concat with rfl | ⟨as, a, rfl⟩
  · rfl
  · simp only [List.concat_eq_append]
    rw [setTailOnLast_concat, setTailOnLast_concat]

lemma htmlSerializeGo_glue (attrs : List (String × String)) :
    ∀ (cs : List Chunk) (acc : List SpanElem),
      htmlSerializeGo attrs cs acc =
        (if headIsSpace cs then setTailOnLast acc else acc) ++ specSerialize attrs cs := by
  intro cs
  induction cs with
  | nil => intro acc; simp [htmlSerializeGo, headIsSpace, specSerialize]
  | cons c rest ih =>
    intro acc
    by_cases hsp : c.is_space
    · rw [htmlSerializeGo, if_pos hsp, ih]
      simp [headIsSpace, hsp, specSerialize, setTailOnLast_idem]
    · rw [htmlSerializeGo, if_neg hsp, ih]
      have hspec : specSerialize attrs (c :: rest) =
          ⟨c.word, attrs, headIsSpace rest⟩ :: specSerialize attrs rest := by
        simp [specSerialize, hsp]
      have hhead : headIsSpace (c :: rest) = false := by
        simp [headIsSpace, hsp]
      rw [hspec, hhead]
      by_cases hr : headIsSpace rest = true
      · rw [if_pos hr, hr, setTailOnLast_concat]
        simp
      · rw [if_neg hr, eq_false_of_ne_true hr]
        simp

lemma concatLoop_nil (d : Bool) (bucket : List Chunk) :
    concatLoop d [] bucket = ([], bucket) := rfl

lemma concatLoop_cons_merge {d : Bool} {c : Chunk} (rest bucket : List Chunk)
    (h : mergeCond d c = true) :
    concatLoop d (c :: rest) bucket = concatLoop d rest (bucket ++ [c]) := by
  simp [concatLoop, h]

lemma concatLoop_cons_emit {d : Bool} {c : Chunk} (rest bucket : List Chunk)
    (h : mergeCond d c = false) :
    concatLoop d (c :: rest) bucket =
      ({ c with word := wordsOf (if d then bucket ++ [c] else (bucket ++ [c]).reverse) }
          :: (concatLoop d rest []).1,
        (concatLoop d rest []).2) := by
  simp [concatLoop, h]

lemma wordsOf_nil : wordsOf [] = [] := rfl

lemma wordsOf_cons (c : Chunk) (l : List Chunk) :
    wordsOf (c :: l) = c.word ++ wordsOf l := by
  simp [wordsOf]

lemma wordsOf_append (l1 l2 : List Chunk) :
    wordsOf (l1 ++ l2) = wordsOf l1 ++ wordsOf l2 := by
  simp [wordsOf]

lemma wordsOf_concatLoop_true :
    ∀ (cs bucket : List Chunk),
      wordsOf ((concatLoop true cs bucket).1 ++ (concatLoop true cs bucket).2) =
        wordsOf bucket ++ wordsOf cs := by
  intro cs
  induction cs with
  | nil => intro bucket; simp [concatLoop_nil, wordsOf]
  | cons c rest ih =>
    intro bucket
    by_cases h : mergeCond true c = true
    · rw [concatLoop_cons_merge rest bucket h, ih]
      simp [wordsOf]
    · rw [concatLoop_cons_emit rest bucket (by simpa using h)]
      simp only [List.cons_append, if_true]
      rw [wordsOf_cons, ih [], wordsOf_append]
      simp [wordsOf, List.append_assoc]

lemma wordsOf_concatLoop_false :
    ∀ (cs bucket : List Chunk),
      wordsOf (((concatLoop false cs bucket).1 ++ (concatLoop false cs bucket).2).reverse) =
        wordsOf cs.reverse ++ wordsOf bucket.reverse := by
  intro cs
  induction cs with
  | nil => intro bucket; simp [concatLoop_nil, wordsOf]
  | cons c rest ih =>
    intro bucket
    by_cases h : mergeCond false c = true
    · rw [concatLoop_cons_merge rest bucket h, ih]
      simp [wordsOf, List.append_assoc]
    · rw [concatLoop_cons_emit rest bucket (by simpa using h)]
      simp only [List.cons_append, if_false, List.reverse_cons]
      rw [wordsOf_append, ih []]
      simp [wordsOf, List.append_assoc]

lemma wordsOf_concatenateInner (cs : List Chunk) (d : Bool) :
    wordsOf (concatenateInner cs d) = wordsOf cs := by
  cases d with
  | true =>
    show wordsOf ((concatLoop true cs []).1 ++ (concatLoop true cs []).2) = wordsOf cs
    rw [wordsOf_concatLoop_true]
    simp [wordsOf]
  | false =>
    show wordsOf (((concatLoop false cs.reverse []).1 ++ (concatLoop false cs.reverse []).2).reverse)
        = wordsOf cs
    rw [wordsOf_concatLoop_false]
    simp [wordsOf]

lemma mergeCond_true_eq (c : Chunk) :
    mergeCond true c = (c.dependency == some true) := by
  simp [mergeCond]

lemma mergeCond_word_update (d : Bool) (c : Chunk) (w : List Char) :
    mergeCond d { c with word := w } = mergeCond d c := rfl

lemma concatLoop_append (d : Bool) :
    ∀ (xs ys bucket : List Chunk),
      concatLoop d (xs ++ ys) bucket =
        ((concatLoop d xs bucket).1 ++ (concatLoop d ys (concatLoop d xs bucket).2).1,
          (concatLoop d ys (concatLoop d xs bucket).2).2) := by
  intro xs
  induction xs with
  | nil => intro ys bucket; simp [concatLoop_nil]
  | cons c rest ih =>
    intro ys bucket
    by_cases h : mergeCond d c = true
    · rw [List.cons_append, concatLoop_cons_merge _ _ h, concatLoop_cons_merge _ _ h, ih]
    · rw [List.cons_append, concatLoop_cons_emit _ _ (eq_false_of_ne_true h),
        concatLoop_cons_emit _ _ (eq_false_of_ne_true h), ih]
      simp

lemma concatLoop_all_merge (d : Bool) :
    ∀ (xs bucket : List Chunk), (∀ c ∈ xs, mergeCond d c = true) →
      concatLoop d xs bucket = ([], bucket ++ xs) := by
  intro xs
  induction xs with
  | nil => intro bucket _; simp [concatLoop_nil]
  | cons c rest ih =>
    intro bucket h
    rw [concatLoop_cons_merge _ _ (h c (by simp)),
      ih _ (fun x hx => h x (by simp [hx]))]
    simp

lemma concatLoop_all_emit (d : Bool) :
    ∀ (xs : List Chunk), (∀ c ∈ xs, mergeCond d c = false) →
      concatLoop d xs [] = (xs, []) := by
  intro xs
  induction xs with
  | nil => intro _; rfl
  | cons c rest ih =>
    intro h
    rw [concatLoop_cons_emit _ _ (h c (by simp)),
      ih (fun x hx => h x (by simp [hx]))]
    have hw : wordsOf (if d then ([] : List Chunk) ++ [c] else (([] : List Chunk) ++ [c]).reverse)
        = c.word := by
      cases d <;> simp [wordsOf]
    rw [hw]

lemma concatLoop_shape (d : Bool) :
    ∀ (xs bucket : List Chunk), (∀ c ∈ bucket, mergeCond d c = true) →
      (∀ c ∈ (concatLoop d xs bucket).1, mergeCond d c = false) ∧
      (∀ c ∈ (concatLoop d xs bucket).2, mergeCond d c = true) := by
  intro xs
  induction xs with
  | nil => intro bucket hb; exact ⟨by simp [concatLoop_nil], by simpa [concatLoop_nil] using hb⟩
  | cons c rest ih =>
    intro bucket hb
    by_cases h : mergeCond d c = true
    · rw [concatLoop_cons_merge _ _ h]
      exact ih _ (by
        intro x hx
        rcases List.mem_append.mp hx with hx | hx
        · exact hb x hx
        · simpa [List.mem_singleton.mp hx] using h)
    · rw [concatLoop_cons_emit _ _ (eq_false_of_ne_true h)]
      refine ⟨?_, (ih [] (by simp)).2⟩
      intro x hx
      rcases List.mem_cons.mp hx with rfl | hx
      · rw [mergeCond_word_update]
        exact eq_false_of_ne_true h
      · exact (ih [] (by simp)).1 x hx

lemma concatLoop_false_all_true :
    ∀ (xs bucket : List Chunk),
      (∀ c ∈ xs, c.dependency = some true) → (∀ c ∈ bucket, c.dependency = some true) →
      (∀ c ∈ (concatLoop false xs bucket).1, c.dependency = some true) ∧
      (∀ c ∈ (concatLoop false xs bucket).2, c.dependency = some true) := by
  intro xs
  induction xs with
  | nil => intro bucket _ hb; exact ⟨by simp [concatLoop_nil], by simpa [concatLoop_nil] using hb⟩
  | cons c rest ih =>
    intro bucket hx hb
    by_cases h : mergeCond false c = true
    · rw [concatLoop_cons_merge _ _ h]
      exact ih _ (fun x hm => hx x (by simp [hm])) (by
        intro x hm
        rcases List.mem_append.mp hm with hm | hm
        · exact hb x hm
        · simpa [List.mem_singleton.mp hm] using hx c (by simp))
    · rw [concatLoop_cons_emit _ _ (eq_false_of_ne_true h)]
      have ihr := ih [] (fun x hm => hx x (by simp [hm])) (by simp)
      refine ⟨?_, ihr.2⟩
      intro x hm
      rcases List.mem_cons.mp hm with rfl | hm
      · simpa using hx c (by simp)
      · exact ihr.1 x hm

lemma concatLoop_false_all_nontrue :
    ∀ (xs bucket : List Chunk),
      (∀ c ∈ xs, c.dependency ≠ some true) →
      (∀ c ∈ (concatLoop false xs bucket).1, c.dependency ≠ some true) ∧
      (concatLoop false xs bucket = ([], bucket ++ xs) ∨
        (∀ c ∈ (concatLoop false xs bucket).2, c.dependency ≠ some true)) := by
  intro xs
  induction xs with
  | nil => intro bucket _; exact ⟨by simp [concatLoop_nil], Or.inl (by simp [concatLoop_nil])⟩
  | cons c rest ih =>
    intro bucket hx
    by_cases h : mergeCond false c = true
    · rw [concatLoop_cons_merge _ _ h]
      have ihr := ih (bucket ++ [c]) (fun x hm => hx x (by simp [hm]))
      refine ⟨ihr.1, ?_⟩
      rcases ihr.2 with heq | hall
      · exact Or.inl (by rw [heq]; simp)
      · exact Or.inr hall
    · rw [concatLoop_cons_emit _ _ (eq_false_of_ne_true h)]
      have ihr := ih [] (fun x hm => hx x (by simp [hm]))
      constructor
      · intro x hm
        rcases List.mem_cons.mp hm with rfl | hm
        · simpa using hx c (by simp)
        · exact ihr.1 x hm
      · refine Or.inr ?_
        rcases ihr.2 with heq | hall
        · rw [heq]
          intro x hm
          exact hx x (by simpa using Or.inr (by simpa using hm))
        · exact hall

lemma concatenateInner_true_fixed (a b : List Chunk)
    (ha : ∀ c ∈ a, c.dependency ≠ some true) (hb : ∀ c ∈ b, c.dependency = some true) :
    concatenateInner (a ++ b) true = a ++ b := by
  have hA : concatLoop true a [] = (a, []) :=
    concatLoop_all_emit true a (by
      intro c hc
      rw [mergeCond_true_eq]
      exact beq_eq_false_iff_ne.mpr (ha c hc))
  have hB : concatLoop true b [] = ([], [] ++ b) :=
    concatLoop_all_merge true b [] (by
      intro c hc
      rw [mergeCond_true_eq]
      exact beq_iff_eq.mpr (hb c hc))
  show (concatLoop true (a ++ b) []).1 ++ (concatLoop true (a ++ b) []).2 = a ++ b
  rw [concatLoop_append, hA]
  rw [show concatLoop true b ((a, ([] : List Chunk)).2) = ([], [] ++ b) from hB]
  simp

lemma concatenateInner_false_fixed (w b : List Chunk)
    (hw : ∀ c ∈ w, mergeCond false c = true) (hb : ∀ c ∈ b, mergeCond false c = false) :
    concatenateInner (w ++ b) false = w ++ b := by
  have hB : concatLoop false b.reverse [] = (b.reverse, []) :=
    concatLoop_all_emit false b.reverse (fun c hc => hb c (List.mem_reverse.mp hc))
  have hW : concatLoop false w.reverse [] = ([], [] ++ w.reverse) :=
    concatLoop_all_merge false w.reverse [] (fun c hc => hw c (List.mem_reverse.mp hc))
  show ((concatLoop false (w ++ b).reverse []).1 ++ (concatLoop false (w ++ b).reverse []).2).reverse
      = w ++ b
  rw [show (w ++ b).reverse = b.reverse ++ w.reverse from by rw [List.reverse_append]]
  rw [concatLoop_append, hB]
  rw [show concatLoop false w.reverse ((b.reverse, ([] : List Chunk)).2) = ([], [] ++ w.reverse)
    from hW]
  simp

lemma resolve_output_shape (cs : List Chunk) :
    (∃ a b, resolveDependency cs = a ++ b ∧ (∀ c ∈ a, c.dependency ≠ some true) ∧
        (∀ c ∈ b, c.dependency = some true)) ∧
    (∃ w b, resolveDependency cs = w ++ b ∧ (∀ c ∈ w, mergeCond false c = true) ∧
        (∀ c ∈ b, mergeCond false c = false)) := by
  have hF : concatenateInner cs true = (concatLoop true cs []).1 ++ (concatLoop true cs []).2 :=
    rfl
  have hFshape := concatLoop_shape true cs [] (by simp)
  have he : ∀ c ∈ (concatLoop true cs []).1, c.dependency ≠ some true := by
    intro c hc
    have := hFshape.1 c hc
    rw [mergeCond_true_eq] at this
    exact beq_eq_false_iff_ne.mp this
  have hw : ∀ c ∈ (concatLoop true cs []).2, c.dependency = some true := by
    intro c hc
    have := hFshape.2 c hc
    rw [mergeCond_true_eq] at this
    exact beq_iff_eq.mp this
  have hO : resolveDependency cs =
      ((concatLoop false (concatenateInner cs true).reverse []).1 ++
        (concatLoop false (concatenateInner cs true).reverse []).2).reverse := rfl
  constructor
  · -- dependency-true chunks form a suffix of the resolved output
    have hFrev : (concatenateInner cs true).reverse =
        (concatLoop true cs []).2.reverse ++ (concatLoop true cs []).1.reverse := by
      rw [hF, List.reverse_append]
    have hp1 := concatLoop_false_all_true (concatLoop true cs []).2.reverse []
      (fun c hc => hw c (List.mem_reverse.mp hc)) (by simp)
    have hp2 := concatLoop_false_all_nontrue (concatLoop true cs []).1.reverse
      (concatLoop false (concatLoop true cs []).2.reverse []).2
      (fun c hc => he c (List.mem_reverse.mp hc))
    rw [hFrev, concatLoop_append] at hO
    rcases hp2.2 with heq | hall
    · rw [heq] at hO
      simp only [List.append_nil, List.reverse_append, List.reverse_reverse] at hO
      refine ⟨(concatLoop true cs []).1,
        (concatLoop false (concatLoop true cs []).2.reverse []).2.reverse ++
          (concatLoop false (concatLoop true cs []).2.reverse []).1.reverse,
        by rw [hO]; simp, he, ?_⟩
      intro c hc
      rcases List.mem_append.mp hc with hc | hc
      · exact hp1.2 c (List.mem_reverse.mp hc)
      · exact hp1.1 c (List.mem_reverse.mp hc)
    · rw [List.reverse_append] at hO
      refine ⟨(concatLoop false (concatLoop true cs []).1.reverse
            (concatLoop false (concatLoop true cs []).2.reverse []).2).2.reverse ++
          (concatLoop false (concatLoop true cs []).1.reverse
            (concatLoop false (concatLoop true cs []).2.reverse []).2).1.reverse,
        (concatLoop false (concatLoop true cs []).2.reverse []).1.reverse,
        ?_, ?_, ?_⟩
      · rw [hO]; simp [List.reverse_append]
      · intro c hc
        rcases List.mem_append.mp hc with hc | hc
        · exact hall c (List.mem_reverse.mp hc)
        · exact hp2.1 c (List.mem_reverse.mp hc)
      · intro c hc
        exact hp1.1 c (List.mem_reverse.mp hc)
  · -- backward-pass output decomposes into merge-condition prefix and terminators
    have hsh := concatLoop_shape false (concatenateInner cs true).reverse [] (by simp)
    refine ⟨(concatLoop false (concatenateInner cs true).reverse []).2.reverse,
      (concatLoop false (concatenateInner cs true).reverse []).1.reverse,
      by rw [hO, List.reverse_append], ?_, ?_⟩
    · intro c hc
      exact hsh.2 c (List.mem_reverse.mp hc)
    · intro c hc
      exact hsh.1 c (List.mem_reverse.mp hc)

lemma listIndex_eq_none (cs : List Chunk) (c : Chunk) :
    listIndex cs c = none ↔ c ∉ cs := by
  induction cs with
  | nil => simp [listIndex]
  | cons x rest ih =>
    by_cases hx : x = c
    · simp [listIndex, hx]
    · simp [listIndex, hx, Option.map_eq_none, ih, Ne.symm hx]

lemma indexesOf_eq_none_iff (cs : List Chunk) :
    ∀ old : List Chunk, indexesOf cs old = none ↔ ∃ c ∈ old, c ∉ cs := by
  intro old
  induction old with
  | nil => simp [indexesOf]
  | cons c rest ih =>
    cases h1 : listIndex cs c with
    | none =>
      have hc : c ∉ cs := (listIndex_eq_none cs c).mp h1
      cases h2 : indexesOf cs rest <;> simp [indexesOf, h1, h2, hc]
    | some i =>
      have hc : c ∈ cs := by
        by_contra hx
        rw [(listIndex_eq_none cs c).mpr hx] at h1
        cases h1
      cases h2 : indexesOf cs rest with
      | none =>
        obtain ⟨a, ha, hna⟩ := ih.mp h2
        simp only [indexesOf, h1, h2]
        constructor
        · intro _
          exact ⟨a, by simp [ha], hna⟩
        · intro _
          trivial
      | some xs =>
        have hrest : ¬ ∃ a ∈ rest, a ∉ cs := by
          rw [← ih, h2]
          simp
        simp only [indexesOf, h1, h2]
        constructor
        · intro h
          cases h
        · intro h
          exfalso
          obtain ⟨a, ha, hna⟩ := h
          rcases List.mem_cons.mp ha with rfl | ha
          · exact hna hc
          · exact hrest ⟨a, ha, hna⟩

lemma indexesOf_length (cs : List Chunk) :
    ∀ (old : List Chunk) (is : List Nat), indexesOf cs old = some is →
      is.length = old.length := by
  intro old
  induction old with
  | nil => intro is h; cases h; rfl
  | cons c rest ih =>
    intro is h
    cases h1 : listIndex cs c with
    | none => rw [indexesOf, h1] at h; cases h2 : indexesOf cs rest <;> rw [h2] at h <;> cases h
    | some i =>
      cases h2 : indexesOf cs rest with
      | none => rw [indexesOf, h1, h2] at h; cases h
      | some xs =>
        rw [indexesOf, h1, h2] at h
        cases h
        simpa using ih xs h2

lemma swap_eq_none_iff (cs : List Chunk) (old : List Chunk) (nc : Chunk) :
    swap cs old nc = none ↔ (old = [] ∨ ∃ c ∈ old, c ∉ cs) := by
  cases hm : indexesOf cs old with
  | none =>
    have hmem := (indexesOf_eq_none_iff cs old).mp hm
    simp [swap, hm, hmem]
  | some idxs =>
    have hmem : ¬ ∃ c ∈ old, c ∉ cs := by
      rw [← indexesOf_eq_none_iff cs old, hm]
      simp
    cases idxs with
    | nil =>
      have hold : old = [] :=
        List.length_eq_zero.mp (by simpa using (indexesOf_length cs old [] hm).symm)
      simp [swap, hm, hold, indexesOf]
    | cons i0 ridx =>
      have hold : old ≠ [] := by
        intro h
        subst h
        rw [indexesOf] at hm
        cases hm
      simp [swap, hm, hold, hmem]

lemma overlapsGo_eq_spec (offset length : Nat) :
    ∀ (cs : List Chunk) (start : Nat), (∀ c ∈ cs, c.word ≠ []) → 1 ≤ length →
      overlapsGo offset length cs start = specOverlapsGo offset length cs start := by
  intro cs
  induction cs with
  | nil => intro start _ _; rfl
  | cons c rest ih =>
    intro start hw hl
    have hlen : 0 < c.word.length := List.length_pos.mpr (hw c (by simp))
    have hcond : (offset < start + c.word.length ∧ start < offset + length) ↔
        (max start offset < min (start + c.word.length) (offset + length)) := by
      omega
    simp only [overlapsGo, specOverlapsGo]
    rw [ih _ (fun x hx => hw x (by simp [hx])) hl, if_congr hcond rfl rfl]

lemma buildTokenChunk_eq_spec (i : Nat) (t : Token) :
    buildTokenChunk i t = tokenChunkSpec i t := by
  obtain ⟨content, boff, label, hidx, pos⟩ := t
  match content with
  | [] =>
    by_cases hp : pos = "PUNCT" <;>
      by_cases hd : label ∈ DEPENDENT_LABEL <;>
        simp [buildTokenChunk, tokenChunkSpec, Chunk.make, addDependencyIfPunct,
          Chunk.maybe_add_dependency, labelIsDependent, hp, hd]
  | [ch] =>
    by_cases hp : pos = "PUNCT" <;>
      by_cases hd : label ∈ DEPENDENT_LABEL <;>
        simp [buildTokenChunk, tokenChunkSpec, Chunk.make, addDependencyIfPunct,
          Chunk.maybe_add_dependency, labelIsDependent, hp, hd]
  | ch1 :: ch2 :: crest =>
    by_cases hp : pos = "PUNCT" <;>
      by_cases hd : label ∈ DEPENDENT_LABEL <;>
        simp [buildTokenChunk, tokenChunkSpec, Chunk.make, addDependencyIfPunct,
          Chunk.maybe_add_dependency, labelIsDependent, hp, hd]

lemma space_chunk_eq : Chunk.space = ⟨[' '], some SPACE_POS, none, none⟩ := rfl

lemma buildTokenChunk_not_space (i : Nat) (t : Token) (h : t.pos ≠ "SPACE") :
    (buildTokenChunk i t).is_space = false := by
  have hpos : (buildTokenChunk i t).pos = some t.pos := by
    rw [buildTokenChunk_eq_spec]
    rfl
  rw [Chunk.is_space, hpos]
  exact beq_eq_false_iff_ne.mpr (by simpa [SPACE_POS] using h)

lemma getSourceChunksGo_filter :
    ∀ (ts : List Token) (i sl : Nat), (∀ t ∈ ts, t.pos ≠ "SPACE") →
      (getSourceChunksGo i sl ts).filter (fun c => !c.is_space) =
        (List.enumFrom i ts).map (fun p => tokenChunkSpec p.1 p.2) := by
  intro ts
  induction ts with
  | nil => intro i sl _; rfl
  | cons t rest ih =>
    intro i sl hs
    have hts : (tokenChunkSpec i t).is_space = false := by
      rw [← buildTokenChunk_eq_spec]
      exact buildTokenChunk_not_space i t (hs t (by simp))
    have hsp : Chunk.space.is_space = true := rfl
    have ihx := fun sl2 => ih (i + 1) sl2 (fun x hx => hs x (by simp [hx]))
    by_cases hg : sl < t.beginOffset <;>
      simp [getSourceChunksGo, hg, List.filter_append, List.filter_cons, hts, hsp,
        ihx, List.enumFrom, buildTokenChunk_eq_spec]

lemma getSourceChunksGo_space_word :
    ∀ (ts : List Token) (i sl : Nat), (∀ t ∈ ts, t.pos ≠ "SPACE") →
      ∀ c ∈ getSourceChunksGo i sl ts, c.is_space = true → c.word = [' '] := by
  intro ts
  induction ts with
  | nil => intro i sl _ c hc; simp [getSourceChunksGo] at hc
  | cons t rest ih =>
    intro i sl hs c hc hcs
    have hts := buildTokenChunk_not_space i t (hs t (by simp))
    simp only [getSourceChunksGo, List.mem_append] at hc
    rcases hc with hc | hc
    · by_cases hg : sl < t.beginOffset
      · rw [if_pos hg] at hc
        rw [List.mem_singleton.mp hc, space_chunk_eq]
      · rw [if_neg hg] at hc
        simp at hc
    · rcases List.mem_cons.mp hc with rfl | hc
      · rw [hcs] at hts
        cases hts
      · exact ih (i + 1) _ (fun x hx => hs x (by simp [hx])) c hc hcs

/-- Claim C1, counterexample: grouping the chunks `["Tokyo", <space>,
"Tower"]` by the entity at offset 0 with content `"Tokyo Tower"` yields a
single chunk whose word is `"Tokyo Tower"` — the words are concatenated
in sequence order including the space chunk's space — not the
`"TokyoTower"` the claim states. -/
theorem c1_entity_grouping_counterexample :
    groupChunksByEntities tokyoChunks [tokyoEntity] =
      some [⟨"Tokyo Tower".toList, none, none, none⟩] ∧
    "Tokyo Tower".toList ≠ "TokyoTower".toList := by
  constructor
  · decide
  · decide

/-- Claim C1 as amended: entity grouping of `["Tokyo", <space>,
"Tower"]` with the entity of offset 0 and content `"Tokyo Tower"`
produces exactly one chunk, with word `"Tokyo Tower"` (the space between
the overlapped chunks is preserved in the merged word), direction unset
and pos/label absent. -/
theorem c1_entity_grouping_amended :
    groupChunksByEntities tokyoChunks [tokyoEntity] =
      some [⟨"Tokyo Tower".toList, none, none, none⟩] := by
  decide

/-- Claim C2, counterexample: `)` is a single code point of punctuation
category Pe (neither Ps nor Pi), yet constructing a `PUNCT` chunk from
it with direction `Forward` passed explicitly yields direction
`Backward` — construction overwrites the passed direction instead of
leaving it unchanged. -/
theorem c2_punct_direction_counterexample :
    ["Ps", "Pi"].contains (unicodeCategory ')') = false ∧
    (Chunk.make [')'] (some "PUNCT") none (some true)).dependency = some false ∧
    (some false : Option Bool) ≠ some true := by
  decide

/-- Claim C2 as amended: constructing a chunk with part of speech
`PUNCT` whose word is a single code point always overwrites the
direction with the category test — `Forward` exactly when the Unicode
category is Ps or Pi, and `Backward` for every other category —
regardless of the direction passed to the constructor. -/
theorem c2_punct_direction_amended (ch : Char) (label : Option String) (dep : Option Bool) :
    (Chunk.make [ch] (some "PUNCT") label dep).dependency =
      some (["Ps", "Pi"].contains (unicodeCategory ch)) := by
  simp [Chunk.make, addDependencyIfPunct]

/-- Claim C3, counterexample: the old-chunk run `[chA, chC]` is not a
contiguous sublist of `[chA, chB, chC]`, yet `swap` completes and
returns a modified sequence (deleting the whole `[chA, chB, chC]` span)
instead of signalling an error. -/
theorem c3_swap_counterexample :
    ¬ ([chA, chC] <:+: [chA, chB, chC]) ∧
    swap [chA, chB, chC] [chA, chC] chNew = some [chNew] := by
  constructor
  · decide
  · decide

/-- Claim C3 as amended: `swap` fails fast exactly when some member of
the old-chunk run is absent from the sequence or the run is empty; when
every member is present the operation completes and modifies the
sequence even if the run is non-contiguous or out of order. -/
theorem c3_swap_amended (cs old : List Chunk) (nc : Chunk) :
    swap cs old nc = none ↔ (old = [] ∨ ∃ c ∈ old, c ∉ cs) :=
  swap_eq_none_iff cs old nc

/-- Claim C4, counterexample: on the sequence `["a", <space>, "b"]` with
offset 1 and length 1 the window `[1, 2)` intersects exactly the space
chunk's span, but `get_overlaps` applies the space-correction rule and
returns the chunk `"b"` instead. -/
theorem c4_overlaps_counterexample :
    getOverlaps [chA, Chunk.space, chB] 1 1 = some [chB] ∧
    specOverlaps [chA, Chunk.space, chB] 1 1 = [Chunk.space] ∧
    ([chB] : List Chunk) ≠ [Chunk.space] := by
  refine ⟨?_, ?_, ?_⟩
  · decide
  · decide
  · decide

/-- Claim C4 as amended: for chunks with non-empty words, a positive
window length and an offset inside the concatenated text, `get_overlaps`
returns exactly the chunks whose character span intersects the window
taken at the corrected offset — `offset + 1` when the character at
`offset` is a space, `offset` otherwise — in sequence order. -/
theorem c4_overlaps_amended (cs : List Chunk) (offset length : Nat)
    (hw : ∀ c ∈ cs, c.word ≠ []) (hl : 1 ≤ length) (ho : offset < (wordsOf cs).length) :
    getOverlaps cs offset length =
      some (specOverlaps cs (correctedOffset cs offset) length) := by
  cases hch : (wordsOf cs).get? offset with
  | none =>
    exact absurd (List.get?_eq_none.mp hch) (Nat.not_le.mpr ho)
  | some ch =>
    have hoff : (if ch = ' ' then offset + 1 else offset) = correctedOffset cs offset := by
      simp only [correctedOffset, hch]
      by_cases hsp : ch = ' ' <;> simp [hsp]
    simp only [getOverlaps, hch]
    rw [hoff]
    exact congrArg some (overlapsGo_eq_spec (correctedOffset cs offset) length cs 0 hw hl)

/-- Witness for the amended claim C4 at the concrete sequence
`["a", <space>, "b"]`, offset 1, length 1. -/
theorem c4_overlaps_witness :
    (∀ c ∈ [chA, Chunk.space, chB], c.word ≠ []) ∧ 1 ≤ 1 ∧
    1 < (wordsOf [chA, Chunk.space, chB]).length ∧
    getOverlaps [chA, Chunk.space, chB] 1 1 =
      some (specOverlaps [chA, Chunk.space, chB]
        (correctedOffset [chA, Chunk.space, chB] 1) 1) :=
  ⟨by decide, by decide, by decide,
    c4_overlaps_amended [chA, Chunk.space, chB] 1 1 (by decide) (by decide) (by decide)⟩

/-- Claim C5, counterexample: running the full pipeline on two annotated
tokens — a forward-leaning dependent token, then a gap that inserts a
space chunk, then a plain token — makes the forward pass terminate a run
at the space chunk and rewrite its word, so the resolved output contains
a chunk that satisfies `is_space` but whose word is `"x "`, not a single
space. -/
theorem c5_space_invariant_counterexample :
    resolveDependency (getSourceChunks demoTokens) =
      [⟨['x', ' '], some "SPACE", none, none⟩, ⟨['y'], some "NOUN", some "NSUBJ", none⟩] ∧
    Chunk.is_space ⟨['x', ' '], some "SPACE", none, none⟩ = true ∧
    (['x', ' '] : List Char) ≠ [' '] := by
  refine ⟨?_, ?_, ?_⟩
  · decide
  · decide
  · decide

/-- Claim C5 as amended: every chunk satisfying `is_space` has the
single-space word in the sequences produced by chunk construction and
source-chunk extraction, provided no input token carries the reserved
`SPACE` part of speech; the two-pass dependency resolution does not
preserve this invariant (see the counterexample), because a forward run
terminating at a space chunk rewrites the space chunk's word. -/
theorem c5_space_invariant_amended (tokens : List Token)
    (hs : ∀ t ∈ tokens, t.pos ≠ "SPACE") :
    ∀ c ∈ getSourceChunks tokens, c.is_space = true → c.word = [' '] :=
  getSourceChunksGo_space_word tokens 0 0 hs

/-- Witness for the amended claim C5 at the concrete token stream
`demoTokens` and its inserted space chunk. -/
theorem c5_space_invariant_witness :
    (∀ t ∈ demoTokens, t.pos ≠ "SPACE") ∧
    Chunk.space ∈ getSourceChunks demoTokens ∧
    Chunk.space.is_space = true ∧ Chunk.space.word = [' '] :=
  ⟨by decide, by decide, by decide,
    c5_space_invariant_amended demoTokens (by decide) Chunk.space (by decide) (by decide)⟩

/-- Claim C6 (confirmed): concatenating all chunk words in order is
preserved by the forward pass, by the backward pass, and by the full
two-pass dependency resolution. -/
theorem c6_text_preservation (cs : List Chunk) :
    wordsOf (concatenateInner cs true) = wordsOf cs ∧
    wordsOf (concatenateInner cs false) = wordsOf cs ∧
    wordsOf (resolveDependency cs) = wordsOf cs :=
  ⟨wordsOf_concatenateInner cs true, wordsOf_concatenateInner cs false, by
    rw [resolveDependency, wordsOf_concatenateInner, wordsOf_concatenateInner]⟩

/-- Claim C7 (confirmed): the two-pass dependency resolution is
idempotent — resolving an already-resolved chunk sequence returns it
unchanged, words, pos, labels and directions included. -/
theorem c7_resolve_idempotent (cs : List Chunk) :
    resolveDependency (resolveDependency cs) = resolveDependency cs := by
  obtain ⟨⟨a, b, hab, ha, hb⟩, ⟨w, bb, hwb, hw, hbb⟩⟩ := resolve_output_shape cs
  have h1 : concatenateInner (resolveDependency cs) true = resolveDependency cs := by
    rw [hab]
    exact concatenateInner_true_fixed a b ha hb
  have h2 : concatenateInner (resolveDependency cs) false = resolveDependency cs := by
    rw [hwb]
    exact concatenateInner_false_fixed w bb hw hbb
  show concatenateInner (concatenateInner (resolveDependency cs) true) false
      = resolveDependency cs
  rw [h1, h2]

/-- Claim C8, counterexample: a token whose direction is still unset
after construction, whose head index (1) is greater than its own
position (0), but whose label `NSUBJ` is not a dependent label, is left
with no direction — not the `Forward` the claim requires. -/
theorem c8_default_direction_counterexample :
    getSourceChunks [nsubjToken] = [⟨['x'], some "NOUN", some "NSUBJ", none⟩] ∧
    0 < nsubjToken.headTokenIndex ∧
    (⟨['x'], some "NOUN", some "NSUBJ", none⟩ : Chunk).dependency ≠ some true := by
  refine ⟨?_, ?_, ?_⟩
  · decide
  · decide
  · decide

/-- Claim C8 as amended: in source-chunk extraction, the chunk built for
the `i`-th token carries the punctuation-derived direction for a
single-code-point `PUNCT` word, otherwise the default direction —
`Forward` exactly when the head index is greater than `i` — but only
when the token's label belongs to the dependent-label set; all other
tokens keep their direction unset.  `tokenChunkSpec` spells out this
rule, and the non-space chunks of the extracted sequence are exactly the
per-token chunks it predicts, in token order. -/
theorem c8_default_direction_amended (tokens : List Token)
    (hs : ∀ t ∈ tokens, t.pos ≠ "SPACE") :
    (getSourceChunks tokens).filter (fun c => !c.is_space) =
      (List.enumFrom 0 tokens).map (fun p => tokenChunkSpec p.1 p.2) :=
  getSourceChunksGo_filter tokens 0 0 hs

/-- Witness for the amended claim C8 at the concrete token stream
`demoTokens`. -/
theorem c8_default_direction_witness :
    (∀ t ∈ demoTokens, t.pos ≠ "SPACE") ∧
    (getSourceChunks demoTokens).filter (fun c => !c.is_space) =
      (List.enumFrom 0 demoTokens).map (fun p => tokenChunkSpec p.1 p.2) :=
  ⟨by decide, c8_default_direction_amended demoTokens (by decide)⟩

/-- Claim C9 (confirmed): serialization emits exactly one element per
non-space chunk, in sequence order, each carrying every attribute pair;
a space chunk emits no element and instead marks a trailing space on the
immediately preceding element, and a space chunk arriving before any
element has been emitted is dropped — `specSerialize` states exactly
this and the serializer's children equal it. -/
theorem c9_serializer_elements (cs : List Chunk) (attrs : List (String × String)) :
    (htmlSerialize cs attrs).children = specSerialize attrs cs := by
  show htmlSerializeGo attrs cs [] = specSerialize attrs cs
  rw [htmlSerializeGo_glue]
  simp [setTailOnLast]

/-- Claim C10 (confirmed): the serialized result is not the bare
concatenation of the per-chunk elements — it is a single outer
attribute-less `span` element holding the per-chunk elements as its
children. -/
theorem c10_outer_wrapper (cs : List Chunk) (attrs : List (String × String)) :
    htmlSerialize cs attrs = ⟨"span", [], specSerialize attrs cs⟩ := by
  show SpanDoc.mk "span" [] (htmlSerializeGo attrs cs []) = _
  rw [htmlSerializeGo_glue]
  simp [setTailOnLast]

end Budou
